import Mathlib

/-!
Shallow embedding of `rumqttd`'s router ACL, connection and topic-alias
code (`src/router/acl.rs`, `src/router/connection.rs`).

Strings are modelled by Lean `String` (a structure over `List Char`); the
Rust `str` primitives the source uses (`split('/')`, `contains`,
`replace`, `rfind(':')`) are re-implemented below on `List Char` with the
same semantics.  `Cow<'static, str>` is modelled by `CowStr`, whose
`owned` flag records `Cow::Owned` (an allocated string) versus
`Cow::Borrowed`.  The external `slab::Slab` used by `BrokerAliases` is
modelled from the slab crate's semantics: a vector of entries in which
each vacant entry stores the index of the next free slot, plus a `next`
head pointer (a LIFO free list); `insert` pops the head of the free list
or appends, `remove` pushes the freed slot onto it.
-/

namespace Rumqtt

/-! ### Rust `str` primitives on `List Char` -/

/-- `str::split('/')`: like Rust, the empty string yields one empty
segment, and separators at either end yield empty segments. -/
def splitOnSlash : List Char → List (List Char)
  | [] => [[]]
  | c :: rest =>
    match splitOnSlash rest with
    | s :: ss => if c = '/' then [] :: s :: ss else (c :: s) :: ss
    | [] => [[]]

/-- `str::contains(pat)`: substring occurrence.  As in Rust, the empty
pattern occurs in every string. -/
def containsSub : List Char → List Char → Bool
  | [], pat => pat.isEmpty
  | s@(_ :: rest), pat => pat.isPrefixOf s || containsSub rest pat

/-- The scanning pass of `str::replace` for a non-empty pattern: at each
position, if the pattern is a prefix, emit the replacement and skip past
the match; otherwise keep the character and advance by one.  `fuel` only
bounds the recursion depth so that the definition is structural (and so
kernel-reducible); every step consumes at least one character, so with
`fuel ≥ l.length` it never runs out. -/
def replaceAux (pat rep : List Char) : Nat → List Char → List Char
  | _, [] => []
  | 0, l => l
  | fuel + 1, c :: rest =>
    if pat.isPrefixOf (c :: rest) then
      rep ++ replaceAux pat rep fuel (rest.drop (pat.length - 1))
    else
      c :: replaceAux pat rep fuel rest

/-- `str::replace(pat, rep)`: all non-overlapping occurrences, scanned
left to right.  For the empty pattern Rust inserts the replacement at
every character boundary, including both ends. -/
def replaceAll (s pat rep : List Char) : List Char :=
  if pat.isEmpty then rep ++ s.foldr (fun c acc => c :: (rep ++ acc)) []
  else replaceAux pat rep s.length s

/-- `str::rfind(c)`: position of the last occurrence of a character. -/
def lastIdxOf : List Char → Char → Option Nat
  | [], _ => none
  | x :: xs, c =>
    match lastIdxOf xs c with
    | some i => some (i + 1)
    | none => if x = c then some 0 else none

def strContains (s pat : String) : Bool := containsSub s.data pat.data

def strReplace (s pat rep : String) : String := ⟨replaceAll s.data pat.data rep.data⟩

/-! ### `AclRule` (`src/router/acl.rs`) -/

/-- Model of `AclRule(Cow<'static, str>)`: `owned = true` is
`Cow::Owned` (a freshly allocated string), `owned = false` is
`Cow::Borrowed`.  Equality of `AclRule` values is representation
equality; the derived Rust `PartialEq` on `Cow` compares contents only
and is modelled separately where a claim needs it. -/
structure AclRule where
  owned : Bool
  str : String
  deriving DecidableEq, Repr

/-- The pairwise walk of `AclRule::matches`: both sides arrive padded
with one trailing `none` sentinel and are consumed in lockstep, with the
Rust `match` arms transcribed in order: `(Some(_), Some("#"))` succeeds,
`(Some(_), Some("+"))` continues, equal entries (including the two
sentinels) continue, anything else fails.  The loop falling off the end
(either iterator exhausted) yields `true`. -/
def matchesAux : List (Option (List Char)) → List (Option (List Char)) → Bool
  | tc :: ts, rc :: rs =>
    (match tc, rc with
     | some _, some r =>
       if r = ['#'] then true
       else if r = ['+'] then matchesAux ts rs
       else if tc = rc then matchesAux ts rs
       else false
     | tc', rc' => if tc' = rc' then matchesAux ts rs else false)
  | _, _ => true

/-- `AclRule::matches` at the segment level: first argument the
topic/candidate segments, second the rule segments. -/
def matchSegs (topicSegs ruleSegs : List (List Char)) : Bool :=
  matchesAux (topicSegs.map some ++ [none]) (ruleSegs.map some ++ [none])

/-- `AclRule::matches(path, _filter)`; the `_filter` flag is unused in
the source. -/
def AclRule.matches (rule : AclRule) (path : String) (_filterFlag : Bool) : Bool :=
  matchSegs (splitOnSlash path.data) (splitOnSlash rule.str.data)

/-- `AclRule::matches_topic`. -/
def AclRule.matchesTopic (rule : AclRule) (topic : String) : Bool :=
  rule.matches topic false

/-- `AclRule::matches_filter`. -/
def AclRule.matchesFilter (rule : AclRule) (f : String) : Bool :=
  rule.matches f true

/-- The illegal-character test of `AclRule::substitute_variables`:
`value` contains `TOPIC_SEP`, `TOPIC_WILDCARD` or `TOPIC_ANY`. -/
def hasIllegal (value : String) : Bool :=
  strContains value "/" || strContains value "#" || strContains value "+"

/-- `AclRule::substitute_variables`: fold over the pairs; an illegal
value skips the pair; otherwise, when the token occurs in `self` (the
*original* rule string), the running string has all occurrences replaced
and becomes `Cow::Owned`. -/
def AclRule.substituteVariables (self : AclRule) (vars : List (String × String)) : AclRule :=
  vars.foldl
    (fun substituted nv =>
      if hasIllegal nv.2 then substituted
      else if strContains self.str nv.1 then ⟨true, strReplace substituted.str nv.1 nv.2⟩
      else substituted)
    self

/-! ### `Acl` (`src/router/acl.rs`) -/

/-- `AclError`: parse failure of the textual ACL form. -/
inductive AclError
  | NoFlags
  deriving DecidableEq, Repr

/-- `Acl { rule, read, write }`. -/
structure Acl where
  rule : AclRule
  read : Bool
  write : Bool
  deriving DecidableEq, Repr

/-- `Acl::substitute_variables`: delegates to the rule, keeping the
flags (`Self { rule, ..self.clone() }`). -/
def Acl.substituteVariables (self : Acl) (vars : List (String × String)) : Acl :=
  { self with rule := self.rule.substituteVariables vars }

/-- `Display for Acl`: `"{rule}:{r?}{w?}"`. -/
def Acl.format (self : Acl) : String :=
  self.rule.str ++ ":" ++ (if self.read then "r" else "") ++ (if self.write then "w" else "")

/-- `FromStr for Acl`: split at the last `':'` (error `NoFlags` when
there is none); the rule is everything before it (stored as
`Cow::Owned`), and the flags substring after it is scanned for the
characters `'r'` and `'w'`. -/
def Acl.fromStr (s : String) : Except AclError Acl :=
  match lastIdxOf s.data ':' with
  | none => .error .NoFlags
  | some i =>
    .ok { rule := ⟨true, ⟨s.data.take i⟩⟩,
          read := (s.data.drop (i + 1)).contains 'r',
          write := (s.data.drop (i + 1)).contains 'w' }

/-- The derived Rust `PartialEq` on `Acl` compares the rule's `Cow`
by *content* (`Cow::Borrowed(s) == Cow::Owned(t)` iff `s == t`). -/
def Acl.eqv (a b : Acl) : Prop :=
  a.rule.str = b.rule.str ∧ a.read = b.read ∧ a.write = b.write

/-! ### `Connection` (`src/router/connection.rs`) -/

/-- The fields of `Connection` the claims are about.  The remaining
fields of the Rust struct (`subscriptions`, `last_will`,
`last_will_properties`, `events`, `protocol_level`, `topic_aliases`,
`broker_topic_aliases`, `subscription_ids`) are initialized in
`Connection::new` to empty/default values independent of the inputs and
are omitted here; `BrokerAliases` is modelled standalone below. -/
structure Connection where
  client_id : String
  tenant_id : Option String
  username : Option String
  dynamic_filters : Bool
  acls : List Acl
  clean : Bool
  deriving DecidableEq, Repr

/-- `Connection::new`: the client id is tenant-qualified when a tenant id
is present, the variable set `[%c, %t?, %u?]` is built in that order with
the absent entries filtered out, and every supplied ACL is substituted
once. -/
def Connection.new (tenant_id username : Option String) (client_id : String)
    (clean dynamic_filters : Bool) (acls : List Acl) : Connection :=
  let client_id :=
    match tenant_id with
    | some t => t ++ "." ++ client_id
    | none => client_id
  let vars :=
    ([some ("%c", client_id), tenant_id.map (fun t => ("%t", t)),
      username.map (fun u => ("%u", u))] : List (Option (String × String))).filterMap id
  { client_id := client_id,
    tenant_id := tenant_id,
    username := username,
    dynamic_filters := dynamic_filters,
    clean := clean,
    acls := acls.map (fun acl => acl.substituteVariables vars) }

/-! ### `slab::Slab<()>`

`BrokerAliases` stores its occupancy pool in a `slab::Slab<()>`, an
external dependency.  The model below follows the slab crate: a vector of
entries where each vacant entry stores the index of the next free slot,
and `next` is the head of that (LIFO) free list.  `insert` takes the slot
`next` points at — popping the free list when `next` is inside the
vector, appending when `next` equals its length — and `remove` marks the
slot vacant and makes it the new head.  The `unreachable`/panic branches
of the crate (inserting when `next` points at an occupied or
out-of-range slot, removing a vacant or out-of-range slot) are modelled
as no-ops; reachable `BrokerAliases` states never hit them (see
`SlabWF`). -/

/-- One slot of the slab: vacant slots store the next free index. -/
inductive SlabEntry
  | vacant (nxt : Nat)
  | occupied
  deriving DecidableEq, Repr

/-- `slab::Slab<()>`: entry vector plus free-list head. -/
structure Slab where
  entries : List SlabEntry
  next : Nat
  deriving DecidableEq, Repr

/-- `Slab::new()`. -/
def Slab.new : Slab := ⟨[], 0⟩

/-- `Slab::insert(())`: returns the key used and the new slab. -/
def Slab.ins (s : Slab) : Nat × Slab :=
  let key := s.next
  if key = s.entries.length then
    (key, ⟨s.entries ++ [.occupied], key + 1⟩)
  else
    match s.entries[key]? with
    | some (.vacant nxt) => (key, ⟨s.entries.set key .occupied, nxt⟩)
    | _ => (key, s)

/-- `Slab::remove(key)`. -/
def Slab.rem (s : Slab) (key : Nat) : Slab :=
  match s.entries[key]? with
  | some .occupied => ⟨s.entries.set key (.vacant s.next), key⟩
  | _ => s

/-- Number of occupied slots. -/
def Slab.occupiedCount (s : Slab) : Nat :=
  s.entries.countP (fun e => e = .occupied)

/-! ### `BrokerAliases` (`src/router/connection.rs`)

The `HashMap<Filter, u16>` forward map is modelled by an association
list with map semantics: `insert` removes any binding of the key and
conses the new one, `remove` filters the key out; a `HashMap` imposes no
order on its entries and none of the claims depends on one. -/

/-- `HashMap::get(k).copied()`. -/
def mapGet (m : List (String × Nat)) (k : String) : Option Nat :=
  (m.find? (fun p => p.1 = k)).map (fun p => p.2)

/-- `HashMap::insert(k, v)` (replacing any existing binding of `k`). -/
def mapInsert (m : List (String × Nat)) (k : String) (v : Nat) : List (String × Nat) :=
  (k, v) :: m.filter (fun p => ¬(p.1 = k))

/-- `HashMap::remove(k)`, dropping the returned value. -/
def mapRemove (m : List (String × Nat)) (k : String) : List (String × Nat) :=
  m.filter (fun p => ¬(p.1 = k))

/-- `BrokerAliases`: forward map, occupancy pool, configured bound.
Aliases are `u16` in the source; they are modelled as `Nat`, faithful
because every stored alias is guarded to be `≤ topic_alias_max ≤ 65535`
before the `as u16` cast, which is then the identity. -/
structure BrokerAliases where
  broker_topic_aliases : List (String × Nat)
  used_aliases : Slab
  topic_alias_max : Nat
  deriving DecidableEq, Repr

/-- `BrokerAliases::new`: a fresh slab with slot 0 occupied (0 is an
invalid topic alias) and an empty forward map. -/
def BrokerAliases.new (topic_alias_max : Nat) : BrokerAliases :=
  { broker_topic_aliases := [],
    used_aliases := (Slab.new.ins).2,
    topic_alias_max := topic_alias_max }

/-- `BrokerAliases::get_alias`. -/
def BrokerAliases.getAlias (b : BrokerAliases) (topic : String) : Option Nat :=
  mapGet b.broker_topic_aliases topic

/-- `BrokerAliases::remove_alias`: drop the forward entry if present and
return its slot to the pool. -/
def BrokerAliases.removeAlias (b : BrokerAliases) (topic : String) : BrokerAliases :=
  match mapGet b.broker_topic_aliases topic with
  | some al =>
    { b with
      broker_topic_aliases := mapRemove b.broker_topic_aliases topic,
      used_aliases := b.used_aliases.rem al }
  | none => b

/-- `BrokerAliases::set_new_alias`: take a slot from the pool; if its
index exceeds `topic_alias_max`, roll the allocation back and return
`none`; otherwise record `topic → alias` and return the alias. -/
def BrokerAliases.setNewAlias (b : BrokerAliases) (topic : String) : Option Nat × BrokerAliases :=
  let (alias_to_use, slab) := b.used_aliases.ins
  if alias_to_use > b.topic_alias_max then
    (none, { b with used_aliases := slab.rem alias_to_use })
  else
    (some alias_to_use,
     { b with
       used_aliases := slab,
       broker_topic_aliases := mapInsert b.broker_topic_aliases topic alias_to_use })

/-- One client-visible operation on a `BrokerAliases` value. -/
inductive AliasOp
  | get (topic : String)
  | set (topic : String)
  | remove (topic : String)
  deriving DecidableEq, Repr

/-- Apply one operation (`get_alias` does not mutate). -/
def BrokerAliases.runOp (b : BrokerAliases) : AliasOp → BrokerAliases
  | .get _ => b
  | .set t => (b.setNewAlias t).2
  | .remove t => b.removeAlias t

/-- Apply a sequence of operations, oldest first. -/
def BrokerAliases.runOps (b : BrokerAliases) (ops : List AliasOp) : BrokerAliases :=
  ops.foldl BrokerAliases.runOp b

/-- Run `set_new_alias` once per topic of a list, collecting results. -/
def BrokerAliases.setMany (b : BrokerAliases) : List String → List (Option Nat) × BrokerAliases
  | [] => ([], b)
  | t :: ts =>
    let (r, b1) := b.setNewAlias t
    let (rs, b2) := b1.setMany ts
    (r :: rs, b2)

/-! ### Specification-side definitions used by individual claims -/

/-- The string computed by `substitute_variables` as the amended claim C2
describes it: pairs are processed in order; a pair whose value contains
`/`, `#` or `+` is skipped; otherwise, when the token occurs in the
*original* pattern string, every occurrence of it in the current string
is replaced by the value. -/
def substVarsAmendedStr (original : String) (vars : List (String × String)) : String :=
  vars.foldl
    (fun s nv =>
      if !hasIllegal nv.2 && strContains original nv.1 then strReplace s nv.1 nv.2 else s)
    original

/-- The tenant-qualified client id of the spec (claim C9). -/
def specClientId (tenant_id : Option String) (client_id : String) : String :=
  match tenant_id with
  | some t => t ++ "." ++ client_id
  | none => client_id

/-- The substitution set of the spec (claim C9): `%c` mapped to the final
client id, then `%t` and `%u`, each present only when its source value
is. -/
def specVars (finalClientId : String) (tenant_id username : Option String) :
    List (String × String) :=
  [("%c", finalClientId)] ++
    (match tenant_id with
     | some t => [("%t", t)]
     | none => []) ++
    (match username with
     | some u => [("%u", u)]
     | none => [])

/-- The free list of a slab: starting from head `n`, each vacant entry
points at the next free index, and the chain ends by pointing one past
the entry vector. -/
inductive IsFreeList (entries : List SlabEntry) : Nat → List Nat → Prop
  | nil : IsFreeList entries entries.length []
  | cons {i nxt l} (hv : entries[i]? = some (.vacant nxt)) (h : IsFreeList entries nxt l) :
      IsFreeList entries i (i :: l)

/-- Well-formedness of the slab model (the invariant the slab crate
maintains): `next` heads a duplicate-free free list whose members are
exactly the vacant slots. -/
def SlabWF (s : Slab) : Prop :=
  ∃ fl, IsFreeList s.entries s.next fl ∧ fl.Nodup ∧
    ∀ i, (∃ nxt, s.entries[i]? = some (SlabEntry.vacant nxt)) ↔ i ∈ fl

/-- The reachable-state invariant of `BrokerAliases`: a well-formed pool
with slot 0 permanently occupied, and a forward map that is functional
(no duplicate topics), injective (no duplicate aliases), and maps into
occupied slots of `1..=topic_alias_max`. -/
def BrokerAliases.Inv (b : BrokerAliases) : Prop :=
  SlabWF b.used_aliases ∧
  b.used_aliases.entries[0]? = some .occupied ∧
  (b.broker_topic_aliases.map Prod.fst).Nodup ∧
  (b.broker_topic_aliases.map Prod.snd).Nodup ∧
  ∀ p ∈ b.broker_topic_aliases,
    1 ≤ p.2 ∧ p.2 ≤ b.topic_alias_max ∧ b.used_aliases.entries[p.2]? = some .occupied

/-! ## Theorems -/

/-! ### Matching (claims C1, C10) -/

/-- Stepping the pairwise walk over an equal head segment: `#` succeeds
immediately, `+` and an exact literal match both continue. -/
theorem matchSegs_cons_same (x : List Char) (ts rs : List (List Char)) :
    matchSegs (x :: ts) (x :: rs) = if x = ['#'] then true else matchSegs ts rs := by
  by_cases h1 : x = ['#'] <;> by_cases h2 : x = ['+'] <;>
    simp [matchSegs, matchesAux, h1, h2]

/-- A pattern ending in `#` matches any topic that extends the literal
prefix by at least one segment. -/
theorem matchSegs_hash_extend (p : List (List Char)) (s : List Char) (rest : List (List Char)) :
    matchSegs (p ++ s :: rest) (p ++ [['#']]) = true := by
  induction p with
  | nil => simp [matchSegs, matchesAux]
  | cons x xs ih =>
    rw [List.cons_append, List.cons_append, matchSegs_cons_same]
    by_cases h : x = ['#'] <;> simp [h, ih]

/-- When the topic's segments are exactly the pattern's literal prefix,
the walk reaches the `#` against the topic-side sentinel and fails. -/
theorem matchSegs_hash_exhausted (p : List (List Char)) (h : ['#'] ∉ p) :
    matchSegs p (p ++ [['#']]) = false := by
  induction p with
  | nil => rfl
  | cons x xs ih =>
    rw [List.cons_append, matchSegs_cons_same]
    have hx : ¬x = ['#'] := fun hx => h (hx ▸ List.mem_cons_self x xs)
    simp [hx]
    exact ih (fun hm => h (List.mem_cons_of_mem x hm))

/-- Claim C1, counterexample: the claim asserts
`matches_topic("test/#", "test") = true`; the code returns `false`,
because at the `#` position the topic side is already the exhausted-side
sentinel and the `(Some(_), Some("#"))` arm does not apply. -/
theorem claim_c1_counterexample :
    (AclRule.mk false "test/#").matchesTopic "test" = false := by decide

/-- Claim C1, amended: during the pairwise segment walk, a pattern
segment `#` succeeds regardless of what follows only when the topic side
still has a segment at that position: a pattern whose segments are
`p ++ [#]` matches every topic whose segments extend `p` by at least one
segment, but against a topic whose segments are exactly `p` (with `p`
free of `#`) the walk pairs `#` with the topic-side sentinel and the
match fails. -/
theorem claim_c1 (p : List (List Char)) (s : List Char) (rest : List (List Char))
    (h : ['#'] ∉ p) :
    matchSegs (p ++ s :: rest) (p ++ [['#']]) = true ∧
    matchSegs p (p ++ [['#']]) = false :=
  ⟨matchSegs_hash_extend p s rest, matchSegs_hash_exhausted p h⟩

/-- Witness for C1 at pattern segments `["test", "#"]`: the topic
`test/abc` matches, the topic `test` does not. -/
theorem claim_c1_witness :
    (['#'] ∉ [['t', 'e', 's', 't']]) ∧
    matchSegs [['t', 'e', 's', 't'], ['a', 'b', 'c']]
      [['t', 'e', 's', 't'], ['#']] = true ∧
    matchSegs [['t', 'e', 's', 't']] [['t', 'e', 's', 't'], ['#']] = false := by
  refine ⟨by decide, ?_, ?_⟩
  · exact (claim_c1 [['t', 'e', 's', 't']] ['a', 'b', 'c'] [] (by decide)).1
  · exact (claim_c1 [['t', 'e', 's', 't']] ['a', 'b', 'c'] [] (by decide)).2

/-- Claim C10, confirmed: `matches_filter` and `matches_topic` both
delegate to `AclRule::matches`, whose `_filter` flag is unused, so they
agree on every pattern and every candidate string; in particular
`matches_filter("test/#", "test/abc/def") = true` and
`matches_filter("test/#", "#") = false`. -/
theorem claim_c10 :
    (∀ (rule : AclRule) (s : String), rule.matchesFilter s = rule.matchesTopic s) ∧
    (AclRule.mk false "test/#").matchesFilter "test/abc/def" = true ∧
    (AclRule.mk false "test/#").matchesFilter "#" = false :=
  ⟨fun _ _ => rfl, by decide, by decide⟩

/-! ### Substitution (claims C2, C6) -/

/-- The `.str` projection of the substitution fold: the accumulator's
`Cow` bookkeeping is irrelevant to the string produced, and the
occurrence guard reads the fixed original string `orig`. -/
theorem substVars_foldl_str (vars : List (String × String)) (orig : String) (acc : AclRule) :
    (vars.foldl
      (fun substituted nv =>
        if hasIllegal nv.2 then substituted
        else if strContains orig nv.1 then
          (⟨true, strReplace substituted.str nv.1 nv.2⟩ : AclRule)
        else substituted)
      acc).str =
    vars.foldl
      (fun s nv =>
        if !hasIllegal nv.2 && strContains orig nv.1 then strReplace s nv.1 nv.2 else s)
      acc.str := by
  induction vars generalizing acc with
  | nil => rfl
  | cons nv vs ih =>
    simp only [List.foldl_cons]
    by_cases h1 : hasIllegal nv.2
    · simpa [h1] using ih acc
    · by_cases h2 : strContains orig nv.1
      · simpa [h1, h2] using ih ⟨true, strReplace acc.str nv.1 nv.2⟩
      · simpa [h1, h2] using ih acc

/-- Claim C2, counterexample: the claim says a token introduced by an
earlier pair's substitution is replaced by a later pair for that token,
so substituting `%x → %y` then `%y → z` into `a%x` would give `az`; the
code checks token occurrence against the *original* string, in which
`%y` does not occur, and produces `a%y`. -/
theorem claim_c2_counterexample :
    ((AclRule.mk false "a%x").substituteVariables [("%x", "%y"), ("%y", "z")]).str = "a%y" ∧
    ((AclRule.mk false "a%x").substituteVariables [("%x", "%y"), ("%y", "z")]).str ≠ "az" := by
  decide

/-- Claim C2, amended: `substitute_variables` processes its pairs in
order; a pair whose value contains `/`, `#` or `+` is skipped while the
remaining pairs still substitute; otherwise, when the token occurs in
the *original* rule string, every occurrence of it in the current,
possibly already partially substituted, string is replaced — so a token
introduced by an earlier pair's substitution is replaced by a later pair
only if that token also occurs in the original string. -/
theorem claim_c2 (self : AclRule) (vars : List (String × String)) :
    (self.substituteVariables vars).str = substVarsAmendedStr self.str vars :=
  substVars_foldl_str vars self.str self

/-- Claim C6, counterexample: substituting `%u → %u` into
`device/%u/version/+` performs a replacement that leaves the string
byte-for-byte unchanged, yet the result is `Cow::Owned` (a new
allocation), not the borrowed representation the claim requires. -/
theorem claim_c6_counterexample :
    ((AclRule.mk false "device/%u/version/+").substituteVariables [("%u", "%u")]).str =
      "device/%u/version/+" ∧
    ((AclRule.mk false "device/%u/version/+").substituteVariables [("%u", "%u")]).owned = true := by
  decide

/-- Claim C6, amended: the result keeps the identical (in particular
borrowed) representation exactly when no replacement is *performed* —
every pair is skipped for an illegal value or its token does not occur
in the original string.  (A performed replacement always produces an
owned string, even when the bytes happen to be unchanged — see the
counterexample.) -/
theorem claim_c6 (self : AclRule) (vars : List (String × String))
    (h : ∀ nv ∈ vars, hasIllegal nv.2 = true ∨ strContains self.str nv.1 = false) :
    self.substituteVariables vars = self := by
  revert h
  induction vars with
  | nil => intro _; rfl
  | cons nv vs ih =>
    intro h
    have hnv := h nv (List.mem_cons_self _ _)
    have hstep :
        (if hasIllegal nv.2 then self
         else if strContains self.str nv.1 then
           (⟨true, strReplace self.str nv.1 nv.2⟩ : AclRule)
         else self) = self := by
      rcases hnv with h1 | h1 <;> simp [h1]
    have : self.substituteVariables (nv :: vs) = self.substituteVariables vs := by
      simp only [AclRule.substituteVariables, List.foldl_cons]
      rw [hstep]
    rw [this]
    exact ih (fun x hx => h x (List.mem_cons_of_mem _ hx))

/-- Witness for C6: substituting `%c` (absent from the rule) into the
borrowed rule `device/%u/version/+` returns the identical borrowed
value. -/
theorem claim_c6_witness :
    (∀ nv ∈ [("%c", "8e7798ed-cf5e-472d-93aa-c7e794bd6aaa")],
      hasIllegal nv.2 = true ∨
        strContains (AclRule.mk false "device/%u/version/+").str nv.1 = false) ∧
    (AclRule.mk false "device/%u/version/+").substituteVariables
      [("%c", "8e7798ed-cf5e-472d-93aa-c7e794bd6aaa")] =
      AclRule.mk false "device/%u/version/+" :=
  ⟨by decide, claim_c6 (AclRule.mk false "device/%u/version/+") _ (by decide)⟩

/-! ### Textual parse/format (claims C7, C8) -/

theorem strMk_data (s : String) : (⟨s.data⟩ : String) = s := by
  obtain ⟨d⟩ := s
  rfl

theorem lastIdxOf_of_notMem (l : List Char) (c : Char) (h : c ∉ l) : lastIdxOf l c = none := by
  induction l with
  | nil => rfl
  | cons x xs ih =>
    have hxs : c ∉ xs := fun hm => h (List.mem_cons_of_mem _ hm)
    have hx : ¬x = c := by
      intro he
      exact h (by rw [he]; exact List.mem_cons_self c xs)
    simp [lastIdxOf, ih hxs, hx]

/-- `rfind` on a string of the shape `a ++ [c] ++ b` with `c` absent from
`b` finds exactly the position `a.length`. -/
theorem lastIdxOf_append (a b : List Char) (c : Char) (hb : c ∉ b) :
    lastIdxOf (a ++ c :: b) c = some a.length := by
  induction a with
  | nil => simp [lastIdxOf, lastIdxOf_of_notMem b c hb]
  | cons x xs ih => simp [lastIdxOf, ih]

/-- Every string containing `c` splits at the *last* occurrence of `c`. -/
theorem exists_splitLast (l : List Char) (c : Char) (h : c ∈ l) :
    ∃ a b, l = a ++ c :: b ∧ c ∉ b := by
  induction l with
  | nil => cases h
  | cons x xs ih =>
    by_cases hxs : c ∈ xs
    · obtain ⟨a, b, hab, hb⟩ := ih hxs
      exact ⟨x :: a, b, by rw [hab, List.cons_append], hb⟩
    · have hx : x = c := by
        rcases List.mem_cons.mp h with h1 | h1
        · exact h1.symm
        · exact absurd h1 hxs
      exact ⟨[], xs, by simp [hx], hxs⟩

theorem take_append_len (a : List Char) (c : Char) (b : List Char) :
    (a ++ c :: b).take a.length = a :=
  List.take_left a (c :: b)

theorem drop_append_len (a : List Char) (c : Char) (b : List Char) :
    (a ++ c :: b).drop (a.length + 1) = b := by
  have h1 : a ++ c :: b = (a ++ [c]) ++ b := by simp
  have h2 : a.length + 1 = (a ++ [c]).length := by simp
  rw [h1, h2, List.drop_left]

/-- `from_str` on any string whose data splits as
`rule ++ ':' ++ flags` with a colon-free flags part. -/
theorem fromStr_split (s st : String) (fl : List Char)
    (hs : s.data = st.data ++ ':' :: fl) (hfl : ':' ∉ fl) :
    Acl.fromStr s = .ok ⟨⟨true, st⟩, fl.contains 'r', fl.contains 'w'⟩ := by
  unfold Acl.fromStr
  rw [hs, lastIdxOf_append st.data fl ':' hfl]
  have ht : (st.data ++ ':' :: fl).take st.data.length = st.data := take_append_len st.data ':' fl
  have hd : (st.data ++ ':' :: fl).drop (st.data.length + 1) = fl := drop_append_len st.data ':' fl
  simp only [ht, hd, strMk_data]

/-- Claim C8, confirmed: parsing fails with the `NoFlags` error exactly
when the input contains no `':'`; any input with a `':'` parses
successfully, splitting at the last `':'` — the rule is everything before
it, `read` holds iff the flags substring contains `'r'` and `write` iff
it contains `'w'`, other flag characters being ignored. -/
theorem claim_c8 (s : String) :
    (Acl.fromStr s = .error .NoFlags ↔ ':' ∉ s.data) ∧
    (':' ∈ s.data →
      ∃ a b, s.data = a ++ ':' :: b ∧ ':' ∉ b ∧
        Acl.fromStr s = .ok ⟨⟨true, ⟨a⟩⟩, b.contains 'r', b.contains 'w'⟩) := by
  have hok : ':' ∈ s.data →
      ∃ a b, s.data = a ++ ':' :: b ∧ ':' ∉ b ∧
        Acl.fromStr s = .ok ⟨⟨true, ⟨a⟩⟩, b.contains 'r', b.contains 'w'⟩ := by
    intro hc
    obtain ⟨a, b, hab, hb⟩ := exists_splitLast s.data ':' hc
    exact ⟨a, b, hab, hb, fromStr_split s ⟨a⟩ b hab hb⟩
  refine ⟨⟨?_, ?_⟩, hok⟩
  · intro he
    by_contra hc
    obtain ⟨a, b, _, _, hparse⟩ := hok hc
    rw [hparse] at he
    cases he
  · intro hn
    simp [Acl.fromStr, lastIdxOf_of_notMem s.data ':' hn]

/-- Witness for C8 at the input `"a:rw"`. -/
theorem claim_c8_witness :
    (':' ∈ "a:rw".data) ∧
    (∃ a b, "a:rw".data = a ++ ':' :: b ∧ ':' ∉ b ∧
      Acl.fromStr "a:rw" = .ok ⟨⟨true, ⟨a⟩⟩, b.contains 'r', b.contains 'w'⟩) :=
  ⟨by decide, (claim_c8 "a:rw").2 (by decide)⟩

/-- Claim C7, confirmed: for every `Acl` value — any rule string,
including ones containing `':'`, and any flag combination —
`parse(format(e))` succeeds and returns a value equal to `e` under the
derived Rust equality (which compares the rule `Cow` by content). -/
theorem claim_c7 (e : Acl) :
    ∃ e2, Acl.fromStr e.format = .ok e2 ∧ e2.eqv e := by
  obtain ⟨⟨ow, st⟩, r, w⟩ := e
  refine ⟨⟨⟨true, st⟩, r, w⟩, ?_, rfl, rfl, rfl⟩
  cases r <;> cases w
  · exact fromStr_split _ st [] (by simp [Acl.format, String.data_append]) (by decide)
  · exact fromStr_split _ st ['w'] (by simp [Acl.format, String.data_append]) (by decide)
  · exact fromStr_split _ st ['r'] (by simp [Acl.format, String.data_append]) (by decide)
  · exact fromStr_split _ st ['r', 'w'] (by simp [Acl.format, String.data_append]) (by decide)

/-! ### Session construction (claim C9) -/

/-- Claim C9, confirmed: `Connection::new` tenant-qualifies the client
id exactly when a tenant id is present, and stores the supplied ACL list
with each entry substituted exactly once against the variable set
`{%c ↦ final client id, %t ↦ tenant id?, %u ↦ username?}` (a pair
present only when its source value is), preserving each entry's
read/write flags. -/
theorem claim_c9 (tenant_id username : Option String) (client_id : String)
    (clean dynamic_filters : Bool) (acls : List Acl) :
    (Connection.new tenant_id username client_id clean dynamic_filters acls).client_id =
      specClientId tenant_id client_id ∧
    (Connection.new tenant_id username client_id clean dynamic_filters acls).acls =
      acls.map (fun a =>
        ⟨a.rule.substituteVariables
            (specVars (specClientId tenant_id client_id) tenant_id username),
          a.read, a.write⟩) := by
  cases tenant_id <;> cases username <;> exact ⟨rfl, rfl⟩

/-! ### Alias allocation on a fresh allocator (claim C4) -/

theorem replicate_set_last {α : Type} (n : Nat) (a x : α) :
    (List.replicate (n + 1) a).set n x = List.replicate n a ++ [x] := by
  induction n with
  | zero => rfl
  | succ k ih =>
    rw [List.replicate_succ a (k + 1), List.set_cons_succ, ih, List.replicate_succ a k,
      List.cons_append]

/-- Running `set_new_alias` repeatedly from a state whose pool is a
fully occupied prefix: every call appends, the `i`-th call returning
alias `j + i`, as long as the configured maximum is not exceeded. -/
theorem setMany_fresh (ts : List String) : ∀ (j max : Nat) (m : List (String × Nat)),
    j + ts.length ≤ max →
    ∃ m2, BrokerAliases.setMany ⟨m, ⟨List.replicate (j + 1) .occupied, j + 1⟩, max⟩ ts =
      ((List.range' (j + 1) ts.length).map some,
       ⟨m2, ⟨List.replicate (j + 1 + ts.length) .occupied, j + 1 + ts.length⟩, max⟩) := by
  induction ts with
  | nil =>
    intro j max m _
    exact ⟨m, by simp [BrokerAliases.setMany]⟩
  | cons t ts ih =>
    intro j max m hle
    have hguard : ¬(j + 1 > max) := by
      simp only [List.length_cons] at hle
      omega
    have hstep : BrokerAliases.setNewAlias ⟨m, ⟨List.replicate (j + 1) .occupied, j + 1⟩, max⟩ t =
        (some (j + 1),
         ⟨mapInsert m t (j + 1), ⟨List.replicate (j + 1 + 1) .occupied, j + 1 + 1⟩, max⟩) := by
      simp [BrokerAliases.setNewAlias, Slab.ins, hguard, ← List.replicate_succ']
    obtain ⟨m2, hrest⟩ := ih (j + 1) max (mapInsert m t (j + 1))
      (by simp only [List.length_cons] at hle; omega)
    refine ⟨m2, ?_⟩
    rw [BrokerAliases.setMany]
    simp only [hstep, hrest, List.length_cons]
    rw [show j + 1 + (ts.length + 1) = j + 1 + 1 + ts.length by omega]
    simp [List.range'_succ]

/-- Claim C4, confirmed: on a fresh allocator with `max > 0`, `max`
successive `set_new_alias` calls on pairwise-distinct topics return
`some` of the pairwise-distinct aliases `1, 2, …, max`; the next call
returns `none` without touching the forward map, and afterwards exactly
`max` slots besides the permanently reserved slot 0 are occupied — the
overflow attempt is rolled back with no residue. -/
theorem claim_c4 (max : Nat) (ts : List String) (t2 : String)
    (hmax : 0 < max) (hlen : ts.length = max) (hnodup : ts.Nodup) (hnew : t2 ∉ ts) :
    ((BrokerAliases.new max).setMany ts).1 = (List.range' 1 max).map some ∧
    ((BrokerAliases.new max).setMany ts).1.Nodup ∧
    (∀ r ∈ ((BrokerAliases.new max).setMany ts).1, ∃ a, r = some a ∧ 1 ≤ a ∧ a ≤ max) ∧
    ((((BrokerAliases.new max).setMany ts).2).setNewAlias t2).1 = none ∧
    (((((BrokerAliases.new max).setMany ts).2).setNewAlias t2).2).used_aliases.occupiedCount
      = max + 1 ∧
    (((((BrokerAliases.new max).setMany ts).2).setNewAlias t2).2).used_aliases.entries[0]?
      = some .occupied ∧
    (((((BrokerAliases.new max).setMany ts).2).setNewAlias t2).2).broker_topic_aliases
      = (((BrokerAliases.new max).setMany ts).2).broker_topic_aliases := by
  obtain ⟨m2, hrun⟩ := setMany_fresh ts 0 max [] (by omega)
  have hnew0 : BrokerAliases.new max =
      ⟨[], ⟨List.replicate (0 + 1) .occupied, 0 + 1⟩, max⟩ := rfl
  rw [hnew0, hrun, hlen]
  have hov : BrokerAliases.setNewAlias
      ⟨m2, ⟨List.replicate (0 + 1 + max) .occupied, 0 + 1 + max⟩, max⟩ t2 =
      (none,
       ⟨m2,
        ⟨List.replicate (0 + 1 + max) .occupied ++ [.vacant (0 + 1 + max + 1)],
         0 + 1 + max⟩, max⟩) := by
    have hguard : 0 + 1 + max > max := by omega
    have hrem : Slab.rem
        ⟨List.replicate (0 + 1 + max) SlabEntry.occupied ++ [.occupied], 0 + 1 + max + 1⟩
        (0 + 1 + max) =
        ⟨List.replicate (0 + 1 + max) SlabEntry.occupied ++ [.vacant (0 + 1 + max + 1)],
         0 + 1 + max⟩ := by
      have hget : (List.replicate (0 + 1 + max) SlabEntry.occupied ++
          [SlabEntry.occupied])[0 + 1 + max]? = some .occupied := by
        rw [List.getElem?_append_right (by simp)]
        simp
      rw [Slab.rem, hget]
      rw [← List.replicate_succ', replicate_set_last]
    simp only [BrokerAliases.setNewAlias, Slab.ins, List.length_replicate, if_pos rfl,
      hguard, if_pos, hrem]
  rw [hov]
  refine ⟨rfl, ?_, ?_, rfl, ?_, ?_, rfl⟩
  · exact ((List.nodup_range' 1 max).map (Option.some_injective Nat))
  · intro r hr
    obtain ⟨a, ha, rfl⟩ := List.mem_map.mp hr
    have := List.mem_range'_1.mp ha
    exact ⟨a, rfl, this.1, by omega⟩
  · simp [Slab.occupiedCount, List.countP_append, List.countP_replicate]
    omega
  · have h1 : 0 + 1 + max = (0 + max) + 1 := by omega
    rw [h1, List.replicate_succ]
    simp

/-! ### Alias reuse order (claim C5) -/

/-- Claim C5, counterexample: free slots 1 and 2 in that order; slot 1 is
free (and within the bound 3), yet the next `set_new_alias` returns
alias 2 — the head of the slab's LIFO free list — not the lowest free
slot. -/
theorem claim_c5_counterexample :
    ((((BrokerAliases.new 3).setMany ["a", "b", "c"]).2.removeAlias "a").removeAlias
        "b").used_aliases.entries[1]? = some (.vacant 4) ∧
    (((((BrokerAliases.new 3).setMany ["a", "b", "c"]).2.removeAlias "a").removeAlias
        "b").setNewAlias "d").1 = some 2 ∧
    (((((BrokerAliases.new 3).setMany ["a", "b", "c"]).2.removeAlias "a").removeAlias
        "b").setNewAlias "d").1 ≠ some 1 := by
  decide

/-- Claim C5, amended: `set_new_alias` takes the slot at the head of the
slab's free list — the most recently freed slot — rather than the
lowest-numbered free slot.  In particular, immediately after
`remove_alias` frees the slot of a mapped, in-bound topic, the next
`set_new_alias` on any topic returns exactly that freed slot. -/
theorem claim_c5 (b : BrokerAliases) (t t2 : String) (a : Nat)
    (hget : b.getAlias t = some a)
    (hocc : b.used_aliases.entries[a]? = some .occupied)
    (hle : a ≤ b.topic_alias_max) :
    ((b.removeAlias t).setNewAlias t2).1 = some a := by
  obtain ⟨hlt, _⟩ := List.getElem?_eq_some.mp hocc
  have hget2 : mapGet b.broker_topic_aliases t = some a := hget
  have hremS : b.removeAlias t =
      { b with
        broker_topic_aliases := mapRemove b.broker_topic_aliases t,
        used_aliases :=
          ⟨b.used_aliases.entries.set a (.vacant b.used_aliases.next), a⟩ } := by
    simp only [BrokerAliases.removeAlias, hget2, Slab.rem, hocc]
  have hlen : ¬(a = (b.used_aliases.entries.set a (.vacant b.used_aliases.next)).length) := by
    rw [List.length_set]
    omega
  have hv : (b.used_aliases.entries.set a (.vacant b.used_aliases.next))[a]? =
      some (.vacant b.used_aliases.next) :=
    List.getElem?_set_self hlt
  have hkey : Slab.ins ⟨b.used_aliases.entries.set a (.vacant b.used_aliases.next), a⟩ =
      (a, ⟨(b.used_aliases.entries.set a (.vacant b.used_aliases.next)).set a .occupied,
           b.used_aliases.next⟩) := by
    simp only [Slab.ins, if_neg hlen, hv]
  have hg : ¬(a > b.topic_alias_max) := by omega
  rw [hremS]
  simp [BrokerAliases.setNewAlias, hkey, hg]

/-- Witness for C5: with one alias allocated on a fresh allocator,
removing it and allocating for another topic reuses slot 1. -/
theorem claim_c5_witness :
    ((BrokerAliases.new 1).setNewAlias "x").2.getAlias "x" = some 1 ∧
    ((BrokerAliases.new 1).setNewAlias "x").2.used_aliases.entries[1]? = some .occupied ∧
    1 ≤ ((BrokerAliases.new 1).setNewAlias "x").2.topic_alias_max ∧
    (((((BrokerAliases.new 1).setNewAlias "x").2).removeAlias "x").setNewAlias "y").1 =
      some 1 :=
  ⟨by decide, by decide, by decide,
    claim_c5 ((BrokerAliases.new 1).setNewAlias "x").2 "x" "y" 1 (by decide) (by decide)
      (by decide)⟩

/-! ### The allocator invariant (claim C3) -/

/-- A free list is insensitive to overwriting a slot outside it. -/
theorem isFreeList_set_notMem {entries : List SlabEntry} {n : Nat} {fl : List Nat}
    (h : IsFreeList entries n fl) (k : Nat) (e : SlabEntry) (hk : k ∉ fl) :
    IsFreeList (entries.set k e) n fl := by
  induction h with
  | nil =>
    have h0 := @IsFreeList.nil (entries.set k e)
    rwa [List.length_set] at h0
  | cons hv hrec ih =>
    rename_i i nxt l
    have hki : k ≠ i := fun he => hk (he ▸ List.mem_cons_self i l)
    refine IsFreeList.cons ?_ (ih (fun hm => hk (List.mem_cons_of_mem _ hm)))
    rw [List.getElem?_set_ne hki]
    exact hv

/-- Case analysis on the head of a free list. -/
theorem isFreeList_head (entries : List SlabEntry) (n : Nat) (fl : List Nat)
    (h : IsFreeList entries n fl) :
    (n = entries.length ∧ fl = []) ∨
    (∃ nxt l, entries[n]? = some (.vacant nxt) ∧ fl = n :: l ∧ IsFreeList entries nxt l) := by
  cases h with
  | nil => exact .inl ⟨rfl, rfl⟩
  | cons hv hrec => exact .inr ⟨_, _, hv, rfl, hrec⟩

/-- `Slab::insert` on a well-formed slab: well-formedness is preserved,
the returned key was not occupied before, is occupied afterwards, and no
other slot changes. -/
theorem Slab.ins_spec (s : Slab) (h : SlabWF s) :
    SlabWF (s.ins).2 ∧
    s.entries[(s.ins).1]? ≠ some .occupied ∧
    ((s.ins).2).entries[(s.ins).1]? = some .occupied ∧
    (∀ j, j ≠ (s.ins).1 → ((s.ins).2).entries[j]? = s.entries[j]?) := by
  obtain ⟨fl, hfl, hnd, hmem⟩ := h
  rcases isFreeList_head _ _ _ hfl with ⟨hn, hfl0⟩ | ⟨nxt, l, hv, hfleq, hrest⟩
  · -- append case: the free list is empty and `next` is one past the end
    subst hfl0
    have hins : s.ins = (s.next, ⟨s.entries ++ [.occupied], s.next + 1⟩) := by
      simp [Slab.ins, hn]
    rw [hins]
    have hmem2 : ∀ i : Nat, ¬∃ nxt : Nat, s.entries[i]? = some (SlabEntry.vacant nxt) := by
      intro i hex
      exact absurd ((hmem i).mp hex) (List.not_mem_nil i)
    refine ⟨⟨[], ?_, List.nodup_nil, ?_⟩, ?_, ?_, ?_⟩
    · have h0 := @IsFreeList.nil (s.entries ++ [SlabEntry.occupied])
      have hlen : (s.entries ++ [SlabEntry.occupied]).length = s.next + 1 := by
        simp [hn]
      rwa [hlen] at h0
    · intro i
      simp only [List.not_mem_nil, iff_false]
      rintro ⟨m, hvac⟩
      rw [List.getElem?_append] at hvac
      by_cases hi : i < s.entries.length
      · rw [if_pos hi] at hvac
        exact hmem2 i ⟨m, hvac⟩
      · rw [if_neg hi] at hvac
        rcases hsub : i - s.entries.length with _ | k
        · rw [hsub] at hvac
          simp at hvac
        · rw [hsub] at hvac
          simp at hvac
    · rw [hn, List.getElem?_eq_none (Nat.le_refl _)]
      simp
    · rw [hn, List.getElem?_append_right (Nat.le_refl _)]
      simp
    · intro j hj
      rw [List.getElem?_append]
      by_cases hjlt : j < s.entries.length
      · rw [if_pos hjlt]
      · rw [if_neg hjlt]
        have hjgt : s.entries.length < j := by
          rw [hn] at hj
          omega
        rcases hsub : j - s.entries.length with _ | k
        · omega
        · rw [List.getElem?_eq_none (Nat.le_of_lt hjgt)]
          simp
  · -- pop case: `next` points at a vacant slot
    subst hfleq
    obtain ⟨hn1, hndl⟩ := List.nodup_cons.mp hnd
    have hlt : s.next < s.entries.length := (List.getElem?_eq_some.mp hv).1
    have hne : ¬(s.next = s.entries.length) := by omega
    have hins : s.ins = (s.next, ⟨s.entries.set s.next .occupied, nxt⟩) := by
      simp [Slab.ins, hne, hv]
    rw [hins]
    refine ⟨⟨l, ?_, hndl, ?_⟩, ?_, ?_, ?_⟩
    · exact isFreeList_set_notMem hrest s.next _ hn1
    · intro i
      by_cases hik : i = s.next
      · subst hik
        rw [List.getElem?_set_self hlt]
        constructor
        · rintro ⟨m, hm⟩
          cases hm
        · intro hm
          exact absurd hm hn1
      · rw [List.getElem?_set_ne (fun he => hik he.symm)]
        rw [hmem i]
        constructor
        · intro hm
          rcases List.mem_cons.mp hm with h1 | h1
          · exact absurd h1 hik
          · exact h1
        · exact fun hm => List.mem_cons_of_mem _ hm
    · rw [hv]
      simp
    · exact List.getElem?_set_self hlt
    · intro j hj
      exact List.getElem?_set_ne (fun he => hj he.symm)

/-- `Slab::remove` of an occupied slot on a well-formed slab:
well-formedness is preserved, the slot becomes the new free-list head,
and no other slot changes. -/
theorem Slab.rem_spec (s : Slab) (k : Nat) (h : SlabWF s)
    (hk : s.entries[k]? = some .occupied) :
    SlabWF (s.rem k) ∧
    (s.rem k).entries[k]? = some (.vacant s.next) ∧
    (s.rem k).next = k ∧
    (∀ j, j ≠ k → (s.rem k).entries[j]? = s.entries[j]?) := by
  obtain ⟨fl, hfl, hnd, hmem⟩ := h
  have hlt : k < s.entries.length := (List.getElem?_eq_some.mp hk).1
  have hknfl : k ∉ fl := by
    intro hm
    obtain ⟨nxt, hvac⟩ := (hmem k).mpr hm
    rw [hk] at hvac
    cases hvac
  have hremS : s.rem k = ⟨s.entries.set k (.vacant s.next), k⟩ := by
    simp [Slab.rem, hk]
  rw [hremS]
  refine ⟨⟨k :: fl, ?_, List.nodup_cons.mpr ⟨hknfl, hnd⟩, ?_⟩, ?_, rfl, ?_⟩
  · exact IsFreeList.cons (List.getElem?_set_self hlt)
      (isFreeList_set_notMem hfl k _ hknfl)
  · intro i
    by_cases hik : i = k
    · subst hik
      rw [List.getElem?_set_self hlt]
      constructor
      · intro _
        exact List.mem_cons_self _ _
      · intro _
        exact ⟨s.next, rfl⟩
    · rw [List.getElem?_set_ne (fun he => hik he.symm), hmem i]
      constructor
      · exact fun hm => List.mem_cons_of_mem _ hm
      · intro hm
        rcases List.mem_cons.mp hm with h1 | h1
        · exact absurd h1 hik
        · exact h1
  · exact List.getElem?_set_self hlt
  · intro j hj
    exact List.getElem?_set_ne (fun he => hj he.symm)

/-- A freshly constructed allocator satisfies the invariant. -/
theorem inv_new (max : Nat) : (BrokerAliases.new max).Inv := by
  refine ⟨⟨[], ?_, List.nodup_nil, ?_⟩, rfl, List.nodup_nil, List.nodup_nil, ?_⟩
  · exact IsFreeList.nil
  · intro i
    simp only [List.not_mem_nil, iff_false]
    rintro ⟨m, hvac⟩
    rcases i with _ | i
    · cases hvac
    · rcases i with _ | i <;> cases hvac
  · intro p hp
    cases hp

/-- `set_new_alias` preserves the invariant (and the configured bound). -/
theorem inv_setNewAlias (b : BrokerAliases) (t : String) (h : b.Inv) :
    ((b.setNewAlias t).2).Inv ∧ ((b.setNewAlias t).2).topic_alias_max = b.topic_alias_max := by
  obtain ⟨hwf, h0, hkeys, hvals, hmapP⟩ := h
  obtain ⟨hwf2, hnotocc, hocc2, hothers⟩ := Slab.ins_spec b.used_aliases hwf
  rcases hins : b.used_aliases.ins with ⟨key, slab2⟩
  rw [hins] at hwf2 hnotocc hocc2 hothers
  simp only at hwf2 hnotocc hocc2 hothers
  have hkey0 : key ≠ 0 := by
    intro he
    rw [he] at hnotocc
    exact hnotocc h0
  have hkeyimg : ∀ p ∈ b.broker_topic_aliases, p.2 ≠ key := by
    intro p hp he
    exact hnotocc (he ▸ (hmapP p hp).2.2)
  by_cases hg : key > b.topic_alias_max
  · -- overflow: the freshly taken slot is rolled back
    have hres : b.setNewAlias t = (none, { b with used_aliases := slab2.rem key }) := by
      simp [BrokerAliases.setNewAlias, hins, hg]
    obtain ⟨hwf3, _, _, hothers3⟩ := Slab.rem_spec slab2 key hwf2 hocc2
    rw [hres]
    refine ⟨⟨hwf3, ?_, hkeys, hvals, ?_⟩, rfl⟩
    · rw [hothers3 0 (fun he => hkey0 he.symm), hothers 0 (fun he => hkey0 he.symm)]
      exact h0
    · intro p hp
      obtain ⟨h1, h2, h3⟩ := hmapP p hp
      refine ⟨h1, h2, ?_⟩
      rw [hothers3 p.2 (hkeyimg p hp), hothers p.2 (hkeyimg p hp)]
      exact h3
  · -- success: the new key is recorded
    have hres : b.setNewAlias t =
        (some key,
         { b with
           used_aliases := slab2,
           broker_topic_aliases := mapInsert b.broker_topic_aliases t key }) := by
      simp [BrokerAliases.setNewAlias, hins, hg]
    rw [hres]
    have hfsub : ((b.broker_topic_aliases.filter (fun p => ¬(p.1 = t))).map Prod.fst).Sublist
        (b.broker_topic_aliases.map Prod.fst) :=
      (List.filter_sublist _).map Prod.fst
    have hssub : ((b.broker_topic_aliases.filter (fun p => ¬(p.1 = t))).map Prod.snd).Sublist
        (b.broker_topic_aliases.map Prod.snd) :=
      (List.filter_sublist _).map Prod.snd
    refine ⟨⟨hwf2, ?_, ?_, ?_, ?_⟩, rfl⟩
    · rw [hothers 0 (fun he => hkey0 he.symm)]
      exact h0
    · refine List.nodup_cons.mpr ⟨?_, hfsub.nodup hkeys⟩
      intro hmem
      obtain ⟨p, hpf, hpt⟩ := List.mem_map.mp hmem
      have := (List.mem_filter.mp hpf).2
      rw [hpt] at this
      simp at this
    · refine List.nodup_cons.mpr ⟨?_, hssub.nodup hvals⟩
      intro hmem
      obtain ⟨p, hpf, hpt⟩ := List.mem_map.mp hmem
      exact hkeyimg p (List.mem_filter.mp hpf).1 hpt
    · intro p hp
      rcases List.mem_cons.mp hp with h1 | h1
      · subst h1
        refine ⟨?_, ?_, hocc2⟩
        · show 1 ≤ key
          omega
        · show key ≤ b.topic_alias_max
          omega
      · have hpm := (List.mem_filter.mp h1).1
        obtain ⟨h1b, h2b, h3b⟩ := hmapP p hpm
        exact ⟨h1b, h2b, by rw [hothers p.2 (hkeyimg p hpm)]; exact h3b⟩

/-- `remove_alias` preserves the invariant (and the configured bound). -/
theorem inv_removeAlias (b : BrokerAliases) (t : String) (h : b.Inv) :
    (b.removeAlias t).Inv ∧ (b.removeAlias t).topic_alias_max = b.topic_alias_max := by
  obtain ⟨hwf, h0, hkeys, hvals, hmapP⟩ := h
  cases hga : mapGet b.broker_topic_aliases t with
  | none =>
    have hres : b.removeAlias t = b := by
      simp [BrokerAliases.removeAlias, hga]
    rw [hres]
    exact ⟨⟨hwf, h0, hkeys, hvals, hmapP⟩, rfl⟩
  | some a =>
    obtain ⟨p, hfindp, hp2⟩ := Option.map_eq_some'.mp hga
    have hpmem : p ∈ b.broker_topic_aliases := List.mem_of_find?_eq_some hfindp
    have hpt : p.1 = t := by simpa using List.find?_some hfindp
    obtain ⟨hp1, hple, hpocc⟩ := hmapP p hpmem
    have ha0 : a ≠ 0 := by omega
    obtain ⟨hwf2, hvac2, hnext2, hothers2⟩ :=
      Slab.rem_spec b.used_aliases a hwf (hp2 ▸ hpocc)
    have hres : b.removeAlias t =
        { b with
          broker_topic_aliases := mapRemove b.broker_topic_aliases t,
          used_aliases := b.used_aliases.rem a } := by
      simp [BrokerAliases.removeAlias, hga]
    rw [hres]
    have hfsub : ((b.broker_topic_aliases.filter (fun p => ¬(p.1 = t))).map Prod.fst).Sublist
        (b.broker_topic_aliases.map Prod.fst) :=
      (List.filter_sublist _).map Prod.fst
    have hssub : ((b.broker_topic_aliases.filter (fun p => ¬(p.1 = t))).map Prod.snd).Sublist
        (b.broker_topic_aliases.map Prod.snd) :=
      (List.filter_sublist _).map Prod.snd
    refine ⟨⟨hwf2, ?_, hfsub.nodup hkeys, hssub.nodup hvals, ?_⟩, rfl⟩
    · rw [hothers2 0 (fun he => ha0 he.symm)]
      exact h0
    · intro q hq
      have hqm : q ∈ b.broker_topic_aliases := (List.mem_filter.mp hq).1
      have hqt : ¬(q.1 = t) := by
        have := (List.mem_filter.mp hq).2
        simpa using this
      obtain ⟨hq1, hqle, hqocc⟩ := hmapP q hqm
      have hqa : q.2 ≠ a := by
        intro he
        have hqp : q = p :=
          List.inj_on_of_nodup_map hvals hqm hpmem (by rw [he, hp2])
        exact hqt (by rw [hqp]; exact hpt)
      exact ⟨hq1, hqle, by rw [hothers2 q.2 hqa]; exact hqocc⟩

/-- The invariant holds along any operation sequence. -/
theorem inv_runOps (ops : List AliasOp) : ∀ b : BrokerAliases, b.Inv →
    (b.runOps ops).Inv ∧ (b.runOps ops).topic_alias_max = b.topic_alias_max := by
  induction ops with
  | nil => exact fun b h => ⟨h, rfl⟩
  | cons op ops ih =>
    intro b h
    have hstep : (b.runOp op).Inv ∧ (b.runOp op).topic_alias_max = b.topic_alias_max := by
      cases op with
      | get t => exact ⟨h, rfl⟩
      | set t => exact inv_setNewAlias b t h
      | remove t => exact inv_removeAlias b t h
    obtain ⟨h1, h2⟩ := ih (b.runOp op) hstep.1
    refine ⟨h1, ?_⟩
    show ((b.runOp op).runOps ops).topic_alias_max = b.topic_alias_max
    rw [h2, hstep.2]

/-- Claim C3, counterexample: calling `set_new_alias` twice on the same
topic leaks the first slot — after `new(2); set("t"); set("t")` the
forward map is `{t ↦ 2}` while slot 1 is still occupied in the pool, so
the occupied slot 1 is the image of no mapped topic and the map is not a
bijection *onto* the occupied slots. -/
theorem claim_c3_counterexample :
    ((BrokerAliases.new 2).runOps [.set "t", .set "t"]).broker_topic_aliases = [("t", 2)] ∧
    ((BrokerAliases.new 2).runOps [.set "t", .set "t"]).used_aliases.entries[1]? =
      some .occupied := by
  decide

/-- Claim C3, amended: after any sequence of `get_alias` /
`set_new_alias` / `remove_alias` operations on `new(topic_alias_max)`,
the forward map is an injective partial map into the occupied slots of
`{1..=topic_alias_max}`: each topic has at most one alias, distinct
topics have distinct aliases, alias 0 is never present, and every mapped
alias's slot is occupied in the pool.  (The map need not be *onto* the
occupied non-zero slots: a `set_new_alias` on a topic that already holds
an alias strands the old slot — see the counterexample.) -/
theorem claim_c3 (max : Nat) (ops : List AliasOp) :
    (((BrokerAliases.new max).runOps ops).broker_topic_aliases.map Prod.fst).Nodup ∧
    (((BrokerAliases.new max).runOps ops).broker_topic_aliases.map Prod.snd).Nodup ∧
    ∀ p ∈ ((BrokerAliases.new max).runOps ops).broker_topic_aliases,
      1 ≤ p.2 ∧ p.2 ≤ max ∧
      ((BrokerAliases.new max).runOps ops).used_aliases.entries[p.2]? = some .occupied := by
  obtain ⟨⟨_, _, hkeys, hvals, hmapP⟩, hmax⟩ :=
    inv_runOps ops (BrokerAliases.new max) (inv_new max)
  have hmax2 : ((BrokerAliases.new max).runOps ops).topic_alias_max = max := hmax
  refine ⟨hkeys, hvals, fun p hp => ?_⟩
  obtain ⟨h1, h2, h3⟩ := hmapP p hp
  exact ⟨h1, hmax2 ▸ h2, h3⟩

/-- Witness for C4 at `max = 2`, topics `["a", "b"]`, overflow topic
`"c"`. -/
theorem claim_c4_witness :
    (0 < 2 ∧ (["a", "b"] : List String).length = 2 ∧ (["a", "b"] : List String).Nodup ∧
      "c" ∉ (["a", "b"] : List String)) ∧
    (((BrokerAliases.new 2).setMany ["a", "b"]).1 = (List.range' 1 2).map some ∧
      ((BrokerAliases.new 2).setMany ["a", "b"]).1.Nodup ∧
      (∀ r ∈ ((BrokerAliases.new 2).setMany ["a", "b"]).1,
        ∃ a, r = some a ∧ 1 ≤ a ∧ a ≤ 2) ∧
      ((((BrokerAliases.new 2).setMany ["a", "b"]).2).setNewAlias "c").1 = none ∧
      (((((BrokerAliases.new 2).setMany ["a", "b"]).2).setNewAlias
        "c").2).used_aliases.occupiedCount = 2 + 1 ∧
      (((((BrokerAliases.new 2).setMany ["a", "b"]).2).setNewAlias
        "c").2).used_aliases.entries[0]? = some .occupied ∧
      (((((BrokerAliases.new 2).setMany ["a", "b"]).2).setNewAlias
        "c").2).broker_topic_aliases =
        (((BrokerAliases.new 2).setMany ["a", "b"]).2).broker_topic_aliases) :=
  ⟨⟨by decide, by decide, by decide, by decide⟩,
    claim_c4 2 ["a", "b"] "c" (by decide) (by decide) (by decide) (by decide)⟩

end Rumqtt
